import Mathlib

/-!
A shallow embedding of the JiraAgent incremental semantic-similarity
index (src/core/Index.py, src/core/Reference_Issue.py,
src/core/Pot_Assignee.py), together with theorems checking the
natural-language specification of the repository against it.

Modelling conventions:
* Python strings are Lean `String`s; an absent or `None` field is
  modelled as the empty string `""`, which agrees with Python's
  falsiness-based `a or b` coalescing chains used throughout the code.
* numpy float values are modelled as rationals `ℚ` (the code only adds,
  multiplies and compares scores, never takes square roots after the
  externally-modelled normalisation step).
* The external `SentenceTransformer.encode` call and the `sqrt`-based
  L2 normalisation `_l2_normalize` are modelled as opaque function
  parameters (`encode`, `normalizeRows`); every theorem below holds for
  arbitrary values of those parameters.
* The filesystem is explicit state: each operation receives the current
  contents/existence of the persisted artifacts and returns the updated
  ones.
-/

namespace JiraAgent

/-- An incoming issue record (`issues` elements in `Index.py` and
`Reference_Issue.py`): a Python dict whose fields "Issue key",
"Issue id", "Summary", "Assignee" are optionally present.  The empty
string models an absent / `None` / empty (falsy) field. -/
structure Issue where
  issueKey : String
  issueId : String
  summary : String
  assignee : String
deriving DecidableEq, Repr

/-- A stored metadata record as built by `add_index_new_Data`
(`Index.py` lines 89-95 and 121-122): the dict
`{"key": ..., "Issue id": ..., "Issue key": ..., "Summary": ..., "Assignee": ...}`. -/
structure MetaEntry where
  key : String
  issueId : String
  issueKey : String
  summary : String
  assignee : String
deriving DecidableEq, Repr

/-- The persisted metadata map: a JSON object keyed by stringified row
ids.  Modelled as an association list from the integer row id to the
entry, in dict insertion order.  (The code writes keys `str(i)`;
`int(k)` round-trips them.) -/
abbrev Meta := List (ℕ × MetaEntry)

/-- Python `meta.get(str(idx))`: first binding of the key, if any. -/
def metaGet (meta : Meta) (k : ℕ) : Option MetaEntry :=
  (meta.find? fun p => p.1 == k).map Prod.snd

/-- Python dict assignment `meta[str(k)] = v`: in-place update when the
key exists, otherwise appended at the end (dicts preserve insertion
order). -/
def metaSet (meta : Meta) (k : ℕ) (v : MetaEntry) : Meta :=
  if meta.any fun p => p.1 == k then
    meta.map fun p => if p.1 == k then (k, v) else p
  else
    meta ++ [(k, v)]

/-- The dict comprehension `{v["key"]: int(k) for k, v in meta.items()}`
(`Index.py` line 75): for duplicate `key` values the later binding
wins, as in a Python dict build. -/
def keyToIdx (meta : Meta) : String → Option ℕ :=
  meta.foldl (fun acc p k => if k = p.2.key then some p.1 else acc k) fun _ => none

/-- The key-derivation chain
`str(t.get("Issue key") or t.get("Issue id") or t.get("Summary") or "")`
used both by `_safe_key` in `Reference_Issue.py` (with the default
`key_field = "Issue key"`) and inline in `add_index_new_Data`
(`Index.py` lines 85 and 113). -/
def safe_key (t : Issue) : String :=
  if t.issueKey ≠ "" then t.issueKey
  else if t.issueId ≠ "" then t.issueId
  else if t.summary ≠ "" then t.summary
  else ""

/-- The candidate-key chain
`str(meta_entry.get("key") or meta_entry.get("Issue key") or meta_entry.get("Issue id") or "")`
(`Reference_Issue.py` line 165). -/
def candidateKey (m : MetaEntry) : String :=
  if m.key ≠ "" then m.key
  else if m.issueKey ≠ "" then m.issueKey
  else if m.issueId ≠ "" then m.issueId
  else ""

/-- A loaded numpy array: its shape together with its entries (indices
outside the shape are irrelevant to every operation below). -/
structure NpArray where
  shape : List ℕ
  entry : ℕ → ℕ → ℚ

/-- Python `a.ndim`. -/
def NpArray.ndim (a : NpArray) : ℕ := a.shape.length

/-- Row count `a.shape[0]` of a 2-D array. -/
def NpArray.rows (a : NpArray) : ℕ := a.shape.getD 0 0

/-- Column count `a.shape[1]` of a 2-D array. -/
def NpArray.cols (a : NpArray) : ℕ := a.shape.getD 1 0

/-- Python `a.size`: the product of the shape. -/
def NpArray.size (a : NpArray) : ℕ := a.shape.foldl (· * ·) 1

/-- `np.zeros((r, c))`. -/
def NpArray.zeros (r c : ℕ) : NpArray :=
  { shape := [r, c], entry := fun _ _ => 0 }

/-- `np.vstack([a, b])` for 2-D arrays: rows of `a` followed by rows of
`b`.  (numpy additionally requires the column counts to agree; all the
call sites below stack arrays produced by the modelled encoder, whose
column count is fixed.) -/
def NpArray.vstack (a b : NpArray) : NpArray :=
  { shape := [a.rows + b.rows, a.cols],
    entry := fun i j => if i < a.rows then a.entry i j else b.entry (i - a.rows) j }

/-- The persisted vector-store artifacts seen by `Index.py`: the
metadata JSON, the embeddings `.npy` matrix, and the rebuilt Annoy
index file. -/
structure IndexState where
  metaExists : Bool
  embExists : Bool
  metaFile : Meta
  embFile : NpArray
  annExists : Bool

/-- Model of `_load_meta_embs` (`Index.py` lines 25-33): when both
files exist, load them, raising `ValueError` ("Saved embeddings have
wrong shape/dim") when the matrix is not 2-D or its column count is not
`dim`; otherwise return the empty snapshot `({}, np.zeros((0, dim)))`. -/
def load_meta_embs (metaExists embExists : Bool) (metaFile : Meta)
    (embFile : NpArray) (dim : ℕ) : Except String (Meta × NpArray) :=
  if metaExists ∧ embExists then
    if embFile.ndim ≠ 2 ∨ embFile.cols ≠ dim then
      Except.error "Saved embeddings have wrong shape/dim"
    else
      Except.ok (metaFile, embFile)
  else
    Except.ok ([], NpArray.zeros 0 dim)

/-- The outcome dict `{"status": ..., "added": ..., "index_size": ...}`
returned by `add_index_new_Data`. -/
structure IndexOutcome where
  status : String
  added : ℕ
  index_size : ℕ
deriving DecidableEq, Repr

/-- The metadata record built from an incoming issue and its derived
key (`Index.py` lines 89-95 and 121-122 build the same dict shape). -/
def mkMeta (t : Issue) (key : String) : MetaEntry :=
  { key := key, issueId := t.issueId, issueKey := t.issueKey,
    summary := t.summary, assignee := t.assignee }

/-- The first-run record selection (`Index.py` lines 82-95): drop
records without a derivable key, keep (text to embed, metadata) pairs
in input order. -/
def firstRunPairs (issues : List Issue) : List (String × MetaEntry) :=
  issues.filterMap fun t =>
    let key := safe_key t
    if key = "" then none
    else some (t.summary, mkMeta t key)

/-- The incremental classification of one record (`Index.py` lines
112-130): drop key-less records; a record is embedded again when its
key is absent from `existing_key_to_idx`, or when the stored row for
that key is missing or differs in Summary or Assignee; otherwise it is
unchanged and dropped. -/
def classifyIncremental (meta : Meta) (t : Issue) :
    Option (String × MetaEntry) :=
  if safe_key t = "" then none
  else
    match keyToIdx meta (safe_key t) with
    | none => some (t.summary, mkMeta t (safe_key t))
    | some idx =>
      match metaGet meta idx with
      | none => some (t.summary, mkMeta t (safe_key t))
      | some stored =>
        if stored.summary ≠ t.summary ∨ stored.assignee ≠ t.assignee then
          some (t.summary, mkMeta t (safe_key t))
        else
          none

/-- The incremental batch selection (`Index.py` lines 110-130). -/
def incrementalPairs (meta : Meta) (issues : List Issue) :
    List (String × MetaEntry) :=
  issues.filterMap (classifyIncremental meta)

/-- Model of `add_index_new_Data` (`Index.py` lines 55-153).  The
external embedding pipeline
`_l2_normalize(model.encode(texts)).astype("float32")` is the opaque
parameter `encode`.  `_save_meta_embs` becomes the returned state (both
files written, hence existing); `_build_and_save_annoy` leaves an index
file exactly when the matrix has at least one row. -/
def add_index_new_Data (encode : List String → NpArray) (embed_dim : ℕ)
    (issues : List Issue) (st : IndexState) :
    Except String (IndexOutcome × IndexState) :=
  match load_meta_embs st.metaExists st.embExists st.metaFile st.embFile embed_dim with
  | Except.error e => Except.error e
  | Except.ok (meta, embs) =>
    if meta = [] then
      let pairs := firstRunPairs issues
      if pairs = [] then
        Except.ok ({ status := "no_data", added := 0, index_size := 0 }, st)
      else
        let newEmbs := encode (pairs.map Prod.fst)
        let metas := pairs.map Prod.snd
        let meta2 : Meta := metas.enum
        Except.ok
          ({ status := "built_from_all", added := metas.length,
             index_size := newEmbs.rows },
           { metaExists := true, embExists := true, metaFile := meta2,
             embFile := newEmbs, annExists := newEmbs.rows ≠ 0 })
    else
      let pairs := incrementalPairs meta issues
      if pairs = [] then
        Except.ok
          ({ status := "no_new_or_changed", added := 0, index_size := embs.rows }, st)
      else
        let newEmbs := encode (pairs.map Prod.fst)
        let embs2 := if embs.size = 0 then newEmbs else embs.vstack newEmbs
        let nBefore := meta.length
        let meta2 := (pairs.map Prod.snd).enum.foldl
          (fun acc p => metaSet acc (nBefore + p.1) p.2) meta
        Except.ok
          ({ status := "incremental_ok", added := pairs.length,
             index_size := embs2.rows },
           { metaExists := true, embExists := true, metaFile := meta2,
             embFile := embs2, annExists := embs2.rows ≠ 0 })

/-- The assignee validity filter of `assign_lru` (`Pot_Assignee.py`
lines 72-73): a stripped CSV cell is usable when it is non-empty and
its lowercase form is none of the placeholder spellings. -/
def validAssignee (a : String) : Bool :=
  a ≠ "" && !(["", "none", "null", "unassigned", "n/a"].contains a.toLower)

/-- Order-preserving first-occurrence deduplication, as performed by
`if a not in lru: lru[a] = None` over an `OrderedDict`. -/
def dedupKeepFirst (l : List String) : List String :=
  l.foldl (fun acc a => if a ∈ acc then acc else acc ++ [a]) []

/-- Model of `assign_lru` (`Pot_Assignee.py` lines 59-110).  The CSV is
`none` when the file is missing, otherwise the list of assignee-column
cells in file order.  `jsonLru` stands for the output of
`_load_assignees_from_json` on the (external) normalized-issues JSON
file — an already-validated ordered list, empty when that file is
missing or holds no assignees.  Returns the selected assignee together
with the CSV state after the call; the CSV is rewritten (header plus
the rotated order) exactly when some assignee was found. -/
def assign_lru (jsonLru : List String) (csv : Option (List String)) :
    Option String × Option (List String) :=
  let fromCsv :=
    match csv with
    | some rows =>
      dedupKeepFirst (rows.filterMap fun r =>
        let a := r.trim
        if validAssignee a then some a else none)
    | none => []
  let lru :=
    match csv with
    | some _ => if fromCsv = [] then jsonLru else fromCsv
    | none => jsonLru
  match lru with
  | [] => (none, csv)
  | a :: rest => (some a, some (rest ++ [a]))

/-- One reference dict appended to `refs`
(`Reference_Issue.py` lines 177-183). -/
structure Reference where
  idx : ℕ
  key : String
  issue_id : String
  summary : String
  score : ℚ
deriving DecidableEq, Repr

/-- The diagnostics bundle attached to each result, reduced to the
fields the specification's claims are about: which path produced the
result, the scored row size, the `n_above_threshold` count and the
`returned_count` (absent on the empty-row path, as in the code). -/
inductive Diagnostics where
  | missingFiles (embPathExists : Bool)
  | dimMismatch (qDim storedDim : ℕ)
  | scored (rowSize nAboveThreshold : ℕ) (returnedCount : Option ℕ)
deriving DecidableEq, Repr

/-- One element of the returned results list
(`Reference_Issue.py` lines 45-50, 123-128, 147, 194). -/
structure RetrievalResult where
  input_key : String
  input_summary : String
  references : List Reference
  diagnostics : Diagnostics
deriving DecidableEq, Repr

/-- The value returned by `find_reference_issues`: the early paths
return a bare results list, the scored path returns the tuple
`results, potential_assignee` (line 208). -/
inductive QueryReturn where
  | plain (results : List RetrievalResult)
  | withAssignee (results : List RetrievalResult) (pa : Option String)
deriving DecidableEq, Repr

/-- The results list carried by either return shape. -/
def QueryReturn.results : QueryReturn → List RetrievalResult
  | .plain rs => rs
  | .withAssignee rs _ => rs

/-- The on-disk state read and written by `find_reference_issues`: the
embeddings matrix, the metadata map (with their existence flags) and
the assignees CSV touched through `assign_lru`. -/
structure Fs where
  embExists : Bool
  metaFound : Bool
  embFile : NpArray
  metaFile : Meta
  csv : Option (List String)

/-- The ranking order underlying `np.argsort(-row)`: higher score
first, ties broken by the smaller index (the deterministic choice; for
pairwise-distinct scores every sort agrees with it). -/
def rankRel (row : List ℚ) (i j : ℕ) : Prop :=
  row.getD j 0 < row.getD i 0 ∨ (row.getD i 0 = row.getD j 0 ∧ i ≤ j)

instance (row : List ℚ) : DecidableRel (rankRel row) := fun i j =>
  inferInstanceAs (Decidable (row.getD j 0 < row.getD i 0 ∨
    (row.getD i 0 = row.getD j 0 ∧ i ≤ j)))

/-- Model of `np.argsort(-row)` (`Reference_Issue.py` line 150): the
indices `0, ..., row.length - 1` sorted by descending score. -/
def argsortDesc (row : List ℚ) : List ℕ :=
  List.insertionSort (rankRel row) (List.range row.length)

/-- The reference-collection loop (`Reference_Issue.py` lines 160-185):
walk the candidate indices in rank order; skip candidates without a
metadata entry, self-matches (both keys non-empty and equal) and
candidates scoring below the threshold; append survivors and stop as
soon as the collected count reaches `top_k`.  `count` is `len(refs)`
at loop entry. -/
def collectRefs (idxToMeta : ℕ → Option MetaEntry) (inputKey : String)
    (thr : ℚ) (topK : ℕ) (row : List ℚ) : ℕ → List ℕ → List Reference
  | _, [] => []
  | count, idx :: rest =>
    match idxToMeta idx with
    | none => collectRefs idxToMeta inputKey thr topK row count rest
    | some m =>
      if candidateKey m ≠ "" ∧ inputKey ≠ "" ∧ candidateKey m = inputKey then
        collectRefs idxToMeta inputKey thr topK row count rest
      else if row.getD idx 0 < thr then
        collectRefs idxToMeta inputKey thr topK row count rest
      else
        if count + 1 ≥ topK then
          [{ idx := idx, key := candidateKey m, issue_id := m.issueId,
             summary := m.summary, score := row.getD idx 0 }]
        else
          { idx := idx, key := candidateKey m, issue_id := m.issueId,
            summary := m.summary, score := row.getD idx 0 } ::
            collectRefs idxToMeta inputKey thr topK row (count + 1) rest

/-- The per-record body of the scoring loop
(`Reference_Issue.py` lines 134-194): build the diagnostics, return an
empty reference list when the similarity row is empty, otherwise rank,
filter and collect at most `top_k` references. -/
def processIssue (idxToMeta : ℕ → Option MetaEntry) (topK : ℕ) (thr : ℚ)
    (row : List ℚ) (issue : Issue) : RetrievalResult :=
  let inputKey := safe_key issue
  if row.length = 0 then
    { input_key := inputKey, input_summary := issue.summary,
      references := [], diagnostics := .scored 0 0 none }
  else
    let topIdxs := (argsortDesc row).take (topK * 2)
    let refs := collectRefs idxToMeta inputKey thr topK row 0 topIdxs
    { input_key := inputKey, input_summary := issue.summary,
      references := refs,
      diagnostics := .scored row.length (row.countP fun x => thr ≤ x)
        (some refs.length) }

/-- The per-iteration `assign_lru` calls at the tail of the scoring
loop (`Reference_Issue.py` lines 204-207): the CSV state is threaded
through the iterations and `potential_assignee` keeps the last call's
value.  (The loop's two strands — appending results and rotating the
assignee CSV — do not interact, so they are modelled separately; the
initial `none` is never the final value because the loop runs at least
once on this path.) -/
def iterateAssign (jsonLru : List String) :
    ℕ → Option String × Option (List String) → Option String × Option (List String)
  | 0, s => s
  | n + 1, (_, csv) =>
    let s2 := assign_lru jsonLru csv
    iterateAssign jsonLru n s2

/-- Row `i` of the similarity matrix `np.dot(q_embs, stored_embs.T)`
(`Reference_Issue.py` line 131): the dot products of query row `i`
against every stored row. -/
def simsRow (q s : NpArray) (i : ℕ) : List ℚ :=
  (List.range s.rows).map fun j =>
    ((List.range q.cols).map fun k => q.entry i k * s.entry j k).sum

/-- Model of `find_reference_issues`
(`Reference_Issue.py` lines 12-208).  `encode` stands for
`model.encode(summaries).astype("float32")`; `normalizeRows` for the
`sqrt`-based row normalisation applied to both matrices (lines 88-91
and 103-105); `jsonLru` as in `assign_lru`.  `fs.metaFound` is whether
any of the candidate metadata filenames exists (lines 31-35).  The
debug printing and the warning-only meta-index consistency check
(lines 73-85) have no effect on the returned value and are not
modelled. -/
def find_reference_issues (encode : List String → NpArray)
    (normalizeRows : NpArray → NpArray) (jsonLru : List String)
    (issues : List Issue) (topK : ℕ) (thr : ℚ) (fs : Fs) :
    Except String (QueryReturn × Fs) :=
  if ¬(fs.embExists ∧ fs.metaFound) then
    Except.ok
      (.plain (issues.map fun i =>
        { input_key := safe_key i, input_summary := i.summary,
          references := [], diagnostics := .missingFiles fs.embExists }), fs)
  else if fs.embFile.ndim ≠ 2 then
    Except.error "embeddings.npy must be 2D"
  else
    let storedDim := fs.embFile.cols
    let storedN := normalizeRows fs.embFile
    let idxToMeta := metaGet fs.metaFile
    if issues = [] then
      Except.ok (.plain [], fs)
    else
      let q := normalizeRows (encode (issues.map Issue.summary))
      if q.cols ≠ storedDim then
        Except.ok
          (.plain (issues.map fun i =>
            { input_key := safe_key i, input_summary := i.summary,
              references := [],
              diagnostics := .dimMismatch q.cols storedDim }), fs)
      else
        let results := issues.enum.map fun p =>
          processIssue idxToMeta topK thr (simsRow q storedN p.1) p.2
        let final := iterateAssign jsonLru issues.length (none, fs.csv)
        Except.ok (.withAssignee results final.1, { fs with csv := final.2 })

/-- Path equation: with a missing embeddings file or no metadata file
found, the query returns per-input empty results flagged
`missing_files`. -/
theorem find_eq_missing (encode : List String → NpArray)
    (normalizeRows : NpArray → NpArray) (jsonLru : List String)
    (issues : List Issue) (topK : ℕ) (thr : ℚ) (fs : Fs)
    (h : fs.embExists = false ∨ fs.metaFound = false) :
    find_reference_issues encode normalizeRows jsonLru issues topK thr fs =
      Except.ok (.plain (issues.map fun i =>
        { input_key := safe_key i, input_summary := i.summary,
          references := [], diagnostics := .missingFiles fs.embExists }), fs) := by
  unfold find_reference_issues
  rcases h with h | h <;> simp [h]

/-- Path equation: a persisted matrix that is not 2-D raises. -/
theorem find_eq_error (encode : List String → NpArray)
    (normalizeRows : NpArray → NpArray) (jsonLru : List String)
    (issues : List Issue) (topK : ℕ) (thr : ℚ) (fs : Fs)
    (hemb : fs.embExists = true) (hmeta : fs.metaFound = true)
    (hndim : fs.embFile.ndim ≠ 2) :
    find_reference_issues encode normalizeRows jsonLru issues topK thr fs =
      Except.error "embeddings.npy must be 2D" := by
  unfold find_reference_issues
  simp [hemb, hmeta, hndim]

/-- Path equation: an empty batch returns the empty list. -/
theorem find_eq_empty_batch (encode : List String → NpArray)
    (normalizeRows : NpArray → NpArray) (jsonLru : List String)
    (topK : ℕ) (thr : ℚ) (fs : Fs)
    (hemb : fs.embExists = true) (hmeta : fs.metaFound = true)
    (hndim : fs.embFile.ndim = 2) :
    find_reference_issues encode normalizeRows jsonLru [] topK thr fs =
      Except.ok (.plain [], fs) := by
  unfold find_reference_issues
  simp [hemb, hmeta, hndim]

/-- Path equation: a query/stored dimension mismatch degrades to
per-input empty results flagged `dim_mismatch`. -/
theorem find_eq_dim_mismatch (encode : List String → NpArray)
    (normalizeRows : NpArray → NpArray) (jsonLru : List String)
    (issues : List Issue) (topK : ℕ) (thr : ℚ) (fs : Fs)
    (hemb : fs.embExists = true) (hmeta : fs.metaFound = true)
    (hndim : fs.embFile.ndim = 2) (hne : issues ≠ [])
    (hdim : (normalizeRows (encode (issues.map Issue.summary))).cols ≠
      fs.embFile.cols) :
    find_reference_issues encode normalizeRows jsonLru issues topK thr fs =
      Except.ok (.plain (issues.map fun i =>
        { input_key := safe_key i, input_summary := i.summary,
          references := [],
          diagnostics := .dimMismatch
            (normalizeRows (encode (issues.map Issue.summary))).cols
            fs.embFile.cols }), fs) := by
  unfold find_reference_issues
  simp [hemb, hmeta, hndim, hne, hdim]

/-- Path equation: on the scoring path every input is processed in
order against its similarity row and the assignee CSV is rotated once
per input. -/
theorem find_eq_scored (encode : List String → NpArray)
    (normalizeRows : NpArray → NpArray) (jsonLru : List String)
    (issues : List Issue) (topK : ℕ) (thr : ℚ) (fs : Fs)
    (hemb : fs.embExists = true) (hmeta : fs.metaFound = true)
    (hndim : fs.embFile.ndim = 2) (hne : issues ≠ [])
    (hdim : (normalizeRows (encode (issues.map Issue.summary))).cols =
      fs.embFile.cols) :
    find_reference_issues encode normalizeRows jsonLru issues topK thr fs =
      Except.ok (.withAssignee
        (issues.enum.map fun p => processIssue (metaGet fs.metaFile) topK thr
          (simsRow (normalizeRows (encode (issues.map Issue.summary)))
            (normalizeRows fs.embFile) p.1) p.2)
        (iterateAssign jsonLru issues.length (none, fs.csv)).1,
        { fs with csv := (iterateAssign jsonLru issues.length (none, fs.csv)).2 }) := by
  unfold find_reference_issues
  simp [hemb, hmeta, hndim, hne, hdim]

/-- The spec-side candidate filter used to characterise the
reference-collection loop: a candidate index survives when it has a
metadata entry, is not a self-match, and scores at least the
threshold; a surviving candidate yields the reference dict the loop
would append. -/
def survivorRef (idxToMeta : ℕ → Option MetaEntry) (inputKey : String)
    (thr : ℚ) (row : List ℚ) (idx : ℕ) : Option Reference :=
  match idxToMeta idx with
  | none => none
  | some m =>
    if candidateKey m ≠ "" ∧ inputKey ≠ "" ∧ candidateKey m = inputKey then none
    else if row.getD idx 0 < thr then none
    else some { idx := idx, key := candidateKey m, issue_id := m.issueId,
                summary := m.summary, score := row.getD idx 0 }

/-- A well-formed persisted metadata map: its row ids are exactly
`0, ..., length - 1` in order, as produced by the indexer itself. -/
def MetaWf (m : Meta) : Prop := m.map Prod.fst = List.range m.length

/-- Default used to read a results list at an arbitrary position. -/
def defaultResult : RetrievalResult :=
  { input_key := "", input_summary := "", references := [],
    diagnostics := .missingFiles false }

/-- Default used to read an issues list at an arbitrary position. -/
def defaultIssue : Issue :=
  { issueKey := "", issueId := "", summary := "", assignee := "" }

/-- The per-input reference count of a retrieval outcome (0 for a
raising outcome or an out-of-range position). -/
def refCountAt (r : Except String (QueryReturn × Fs)) (i : ℕ) : ℕ :=
  match r with
  | Except.ok (out, _) => ((out.results.getD i defaultResult).references).length
  | Except.error _ => 0

/-- Sample metadata entry used by concrete instantiations below. -/
def sampleEntry : MetaEntry :=
  { key := "K", issueId := "7", issueKey := "K", summary := "s", assignee := "al" }

/-- Sample stored metadata: rows 0 and 1 carry the key "K", row 2 the
key "B". -/
def exEntry (k : String) : MetaEntry :=
  { key := k, issueId := "", issueKey := "", summary := "s", assignee := "" }

/-- Sample metadata map for the retrieval scenarios. -/
def exMeta : Meta := [(0, exEntry "K"), (1, exEntry "K"), (2, exEntry "B")]

/-- Sample stored 3 × 1 embedding matrix with rows scoring 9, 8, 7
against the sample query. -/
def exStored : NpArray :=
  { shape := [3, 1],
    entry := fun i _ => if i = 0 then 9 else if i = 1 then 8 else 7 }

/-- Sample encoder producing 1-dimensional unit query vectors. -/
def exEncode : List String → NpArray :=
  fun ts => { shape := [ts.length, 1], entry := fun _ _ => 1 }

/-- Sample encoder producing 2-dimensional vectors (used to force a
dimension mismatch against the 1-dimensional sample store). -/
def exEncode2 : List String → NpArray :=
  fun ts => { shape := [ts.length, 2], entry := fun _ _ => 1 }

/-- Sample query issue whose key "K" already exists in the store. -/
def exIssue : Issue :=
  { issueKey := "K", issueId := "", summary := "q", assignee := "" }

/-- Sample on-disk state for the retrieval scenarios. -/
def exFs : Fs :=
  { embExists := true, metaFound := true, embFile := exStored,
    metaFile := exMeta, csv := some ["alice", "bob"] }

/-- Sample batch records sharing the derived key "K" with different
summaries. -/
def exIssueA : Issue :=
  { issueKey := "K", issueId := "", summary := "a", assignee := "" }

/-- Second sample record with the key "K". -/
def exIssueB : Issue :=
  { issueKey := "K", issueId := "", summary := "b", assignee := "" }

/-- Sample encoder for the indexing scenarios (4-dimensional). -/
def exEncode4 : List String → NpArray :=
  fun ts => { shape := [ts.length, 4], entry := fun _ _ => 1 }

/-- An empty on-disk index state. -/
def exEmptyState : IndexState :=
  { metaExists := false, embExists := false, metaFile := [],
    embFile := NpArray.zeros 0 4, annExists := false }

/-- The reference to sample row 2 as returned by the sample run. -/
def exRefB : Reference :=
  { idx := 2, key := "B", issue_id := "", summary := "s", score := 7 }

/-- The sample result returned for `exIssue` with `top_k = 3`. -/
def exResultK : RetrievalResult :=
  { input_key := "K", input_summary := "q", references := [exRefB],
    diagnostics := .scored 3 3 (some 1) }

/-- The sample on-disk state after one query (assignee CSV rotated). -/
def exFsAfter : Fs :=
  { embExists := true, metaFound := true, embFile := exStored,
    metaFile := exMeta, csv := some ["bob", "alice"] }

/-- C10: if exactly one of the two persisted artifacts (metadata file,
embedding-matrix file) exists, loading returns the empty snapshot
(zero rows, dimension D), silently ignoring the surviving file and
raising no error. -/
theorem C10_single_artifact_is_empty_snapshot :
    ∀ (metaFile : Meta) (embFile : NpArray) (dim : ℕ),
      load_meta_embs true false metaFile embFile dim =
        Except.ok ([], NpArray.zeros 0 dim) ∧
      load_meta_embs false true metaFile embFile dim =
        Except.ok ([], NpArray.zeros 0 dim) := by
  intro m a d
  constructor <;> simp [load_meta_embs]

/-- C3 counterexample: both artifacts exist, the metadata holds 2 rows
while the matrix holds 3 rows of the configured dimension 4, yet the
load succeeds and returns the disagreeing pair unchanged — no
CorruptState error is raised on a row-count disagreement. -/
theorem C3_counterexample :
    load_meta_embs true true [(0, sampleEntry), (1, sampleEntry)]
        { shape := [3, 4], entry := fun _ _ => 0 } 4 =
      Except.ok ([(0, sampleEntry), (1, sampleEntry)],
        { shape := [3, 4], entry := fun _ _ => 0 }) := by
  rfl

/-- C3 (amended): loading the vector store fails iff both artifacts
exist and the matrix is either not 2-D or has a column count different
from the configured dimension D; a metadata/matrix row-count
disagreement is not checked and never fails the load. -/
theorem C3_load_failure_characterization (metaExists embExists : Bool)
    (metaFile : Meta) (embFile : NpArray) (dim : ℕ) :
    (∃ e, load_meta_embs metaExists embExists metaFile embFile dim =
        Except.error e) ↔
      (metaExists = true ∧ embExists = true ∧
        (embFile.ndim ≠ 2 ∨ embFile.cols ≠ dim)) := by
  unfold load_meta_embs
  cases metaExists <;> cases embExists <;> simp
  split <;> simp_all

/-- C5: when the query embedding dimension differs from the stored
dimension, the retrieval returns — without raising — one result per
input record, each with an empty reference list and a
dimension-mismatch diagnostic. -/
theorem C5_dim_mismatch_degrades (encode : List String → NpArray)
    (normalizeRows : NpArray → NpArray) (jsonLru : List String)
    (issues : List Issue) (topK : ℕ) (thr : ℚ) (fs : Fs)
    (hemb : fs.embExists = true) (hmeta : fs.metaFound = true)
    (hndim : fs.embFile.ndim = 2) (hne : issues ≠ [])
    (hdim : (normalizeRows (encode (issues.map Issue.summary))).cols ≠
      fs.embFile.cols) :
    find_reference_issues encode normalizeRows jsonLru issues topK thr fs =
      Except.ok (.plain (issues.map fun i =>
        { input_key := safe_key i, input_summary := i.summary,
          references := [],
          diagnostics := .dimMismatch
            (normalizeRows (encode (issues.map Issue.summary))).cols
            fs.embFile.cols }), fs) := by
  unfold find_reference_issues
  simp [hemb, hmeta, hndim, hne, hdim]

/-- Witness for C5: a concrete 2-dimensional query against the
1-dimensional sample store degrades to an empty reference list with
the dimension-mismatch diagnostic. -/
theorem C5_dim_mismatch_witness :
    find_reference_issues exEncode2 id [] [exIssue] 3 1 exFs =
      Except.ok (.plain [{ input_key := "K"
                           input_summary := "q"
                           references := []
                           diagnostics := .dimMismatch 2 1 }], exFs) := by
  have h := C5_dim_mismatch_degrades exEncode2 id [] [exIssue] 3 1 exFs
    rfl rfl rfl (by simp) (by decide)
  simpa using h

/-- The reference-collection loop keeps the first survivors of the
candidate walk: starting from `count` already-collected references it
returns the first `max (topK - count) 1` entries of the survivor
filter (the `max _ 1` reflects that the `len(refs) >= top_k` break is
only tested after an append). -/
theorem collectRefs_eq_take_filterMap (idxToMeta : ℕ → Option MetaEntry)
    (inputKey : String) (thr : ℚ) (topK : ℕ) (row : List ℚ)
    (idxs : List ℕ) (count : ℕ) :
    collectRefs idxToMeta inputKey thr topK row count idxs =
      (idxs.filterMap (survivorRef idxToMeta inputKey thr row)).take
        (max (topK - count) 1) := by
  induction idxs generalizing count with
  | nil => simp [collectRefs]
  | cons idx rest ih =>
    simp only [collectRefs, survivorRef, List.filterMap_cons]
    cases hm : idxToMeta idx with
    | none => exact ih count
    | some m =>
      by_cases hself : candidateKey m ≠ "" ∧ inputKey ≠ "" ∧
        candidateKey m = inputKey
      · simp only [if_pos hself]
        exact ih count
      · by_cases hthr : row.getD idx 0 < thr
        · simp only [if_neg hself, if_pos hthr]
          exact ih count
        · simp only [if_neg hself, if_neg hthr]
          by_cases hc : count + 1 ≥ topK
          · have hmax : max (topK - count) 1 = 1 := by omega
            simp [hc, hmax]
          · have hmax : max (topK - count) 1 = ((topK - (count + 1)) ⊔ 1) + 1 := by
              omega
            simp only [if_neg hc, hmax, List.take_succ_cons]
            rw [ih (count + 1)]

/-- A surviving candidate's key never equals a non-empty query key. -/
theorem survivorRef_key_ne (idxToMeta : ℕ → Option MetaEntry)
    (inputKey : String) (thr : ℚ) (row : List ℚ) (idx : ℕ) (r : Reference)
    (hk : inputKey ≠ "")
    (h : survivorRef idxToMeta inputKey thr row idx = some r) :
    r.key ≠ inputKey := by
  cases hm : idxToMeta idx with
  | none => simp [survivorRef, hm] at h
  | some m =>
    simp only [survivorRef, hm] at h
    by_cases hself : candidateKey m ≠ "" ∧ inputKey ≠ "" ∧
      candidateKey m = inputKey
    · rw [if_pos hself] at h
      exact absurd h (by simp)
    · by_cases hthr : row.getD idx 0 < thr
      · rw [if_neg hself, if_pos hthr] at h
        exact absurd h (by simp)
      · rw [if_neg hself, if_neg hthr] at h
        have hr := Option.some.inj h
        subst hr
        intro hkey
        simp only at hkey
        exact hself ⟨by simpa [hkey] using hk, hk, hkey⟩

/-- The per-record body preserves the input key verbatim. -/
theorem processIssue_input_key (idxToMeta : ℕ → Option MetaEntry)
    (topK : ℕ) (thr : ℚ) (row : List ℚ) (issue : Issue) :
    (processIssue idxToMeta topK thr row issue).input_key = safe_key issue := by
  unfold processIssue
  split <;> rfl

/-- The per-record body preserves the input summary verbatim. -/
theorem processIssue_input_summary (idxToMeta : ℕ → Option MetaEntry)
    (topK : ℕ) (thr : ℚ) (row : List ℚ) (issue : Issue) :
    (processIssue idxToMeta topK thr row issue).input_summary =
      issue.summary := by
  unfold processIssue
  split <;> rfl

/-- Every reference produced by the per-record body is a survivor of
the filter over the truncated ranking. -/
theorem processIssue_references (idxToMeta : ℕ → Option MetaEntry)
    (topK : ℕ) (thr : ℚ) (row : List ℚ) (issue : Issue) :
    (processIssue idxToMeta topK thr row issue).references =
      (((argsortDesc row).take (topK * 2)).filterMap
        (survivorRef idxToMeta (safe_key issue) thr row)).take (max topK 1) := by
  unfold processIssue
  split
  next h =>
    have hrow : row = [] := List.eq_nil_of_length_eq_zero h
    subst hrow
    simp [argsortDesc]
  next h =>
    simp [collectRefs_eq_take_filterMap]

/-- No reference of a per-record result matches a non-empty query key. -/
theorem processIssue_no_self (idxToMeta : ℕ → Option MetaEntry)
    (topK : ℕ) (thr : ℚ) (row : List ℚ) (issue : Issue)
    (hk : safe_key issue ≠ "") :
    ∀ ref ∈ (processIssue idxToMeta topK thr row issue).references,
      ref.key ≠ safe_key issue := by
  intro ref href
  rw [processIssue_references] at href
  have h2 := List.take_subset _ _ href
  obtain ⟨idx, _, hs⟩ := List.mem_filterMap.mp h2
  exact survivorRef_key_ne idxToMeta (safe_key issue) thr row idx ref hk hs

/-- C6: a query record with a non-empty key never receives a reference
whose key equals its own key, for every threshold and top_k. -/
theorem C6_self_suppression (encode : List String → NpArray)
    (normalizeRows : NpArray → NpArray) (jsonLru : List String)
    (issues : List Issue) (topK : ℕ) (thr : ℚ) (fs : Fs)
    (out : QueryReturn) (fs2 : Fs)
    (h : find_reference_issues encode normalizeRows jsonLru issues topK thr fs =
      Except.ok (out, fs2)) :
    ∀ r ∈ out.results, r.input_key ≠ "" →
      ∀ ref ∈ r.references, ref.key ≠ r.input_key := by
  intro r hr hk ref href
  simp only [find_reference_issues] at h
  split at h
  · simp only [Except.ok.injEq, Prod.mk.injEq] at h
    obtain ⟨ho, -⟩ := h
    subst ho
    simp only [QueryReturn.results] at hr
    obtain ⟨i, -, hi⟩ := List.mem_map.mp hr
    subst hi
    simp at href
  · split at h
    · exact absurd h (by simp)
    · split at h
      · simp only [Except.ok.injEq, Prod.mk.injEq] at h
        obtain ⟨ho, -⟩ := h
        subst ho
        simp [QueryReturn.results] at hr
      · split at h
        · simp only [Except.ok.injEq, Prod.mk.injEq] at h
          obtain ⟨ho, -⟩ := h
          subst ho
          simp only [QueryReturn.results] at hr
          obtain ⟨i, -, hi⟩ := List.mem_map.mp hr
          subst hi
          simp at href
        · simp only [Except.ok.injEq, Prod.mk.injEq] at h
          obtain ⟨ho, -⟩ := h
          subst ho
          simp only [QueryReturn.results] at hr
          obtain ⟨p, -, hp⟩ := List.mem_map.mp hr
          subst hp
          rw [processIssue_input_key] at hk ⊢
          exact processIssue_no_self _ _ _ _ _ hk ref href

/-- Witness for C6: in the concrete sample run the only returned
reference carries the key "B", different from the query key "K". -/
theorem C6_self_suppression_witness : ("B" : String) ≠ "K" := by
  have h := C6_self_suppression exEncode id [] [exIssue] 3 1 exFs
    (.withAssignee [exResultK] (some "alice")) exFsAfter
    (by with_unfolding_all rfl)
  exact h exResultK (by simp [QueryReturn.results]) (by decide) exRefB
    (by simp [exResultK])

/-- A pointwise-stronger filter keeps at most as many elements. -/
theorem filterMap_length_mono {α β : Type} (f g : α → Option β) (l : List α)
    (h : ∀ x, (f x).isSome → (g x).isSome) :
    (l.filterMap f).length ≤ (l.filterMap g).length := by
  induction l with
  | nil => simp
  | cons a l ih =>
    cases hf : f a with
    | none =>
      cases hg : g a with
      | none => simpa [List.filterMap_cons, hf, hg] using ih
      | some c =>
        simp only [List.filterMap_cons, hf, hg, List.length_cons]
        exact Nat.le_succ_of_le ih
    | some b =>
      have hs := h a (by simp [hf])
      obtain ⟨c, hg⟩ := Option.isSome_iff_exists.mp hs
      simp only [List.filterMap_cons, hf, hg, List.length_cons]
      exact Nat.succ_le_succ ih

/-- A candidate surviving a higher threshold survives a lower one. -/
theorem survivorRef_isSome_mono (idxToMeta : ℕ → Option MetaEntry)
    (inputKey : String) (row : List ℚ) {t1 t2 : ℚ} (h : t1 ≤ t2) (idx : ℕ)
    (hs : (survivorRef idxToMeta inputKey t2 row idx).isSome = true) :
    (survivorRef idxToMeta inputKey t1 row idx).isSome = true := by
  cases hm : idxToMeta idx with
  | none => simp [survivorRef, hm] at hs
  | some m =>
    simp only [survivorRef, hm] at hs ⊢
    by_cases hself : candidateKey m ≠ "" ∧ inputKey ≠ "" ∧
      candidateKey m = inputKey
    · rw [if_pos hself] at hs; simp at hs
    · rw [if_neg hself] at hs ⊢
      by_cases h1 : row.getD idx 0 < t1
      · rw [if_pos (lt_of_lt_of_le h1 h)] at hs
        simp at hs
      · rw [if_neg h1]
        simp

/-- Raising the threshold never lengthens a per-record reference list. -/
theorem processIssue_refs_length_mono (idxToMeta : ℕ → Option MetaEntry)
    (topK : ℕ) (row : List ℚ) (issue : Issue) {t1 t2 : ℚ} (h : t1 ≤ t2) :
    (processIssue idxToMeta topK t2 row issue).references.length ≤
      (processIssue idxToMeta topK t1 row issue).references.length := by
  rw [processIssue_references, processIssue_references]
  have hlen := filterMap_length_mono
    (survivorRef idxToMeta (safe_key issue) t2 row)
    (survivorRef idxToMeta (safe_key issue) t1 row)
    ((argsortDesc row).take (topK * 2))
    (fun idx => survivorRef_isSome_mono idxToMeta (safe_key issue) row h idx)
  simp only [List.length_take]
  omega

/-- C8: for a fixed query batch and store, raising the score threshold
never increases the number of references returned for any query
record. -/
theorem C8_threshold_monotonicity (encode : List String → NpArray)
    (normalizeRows : NpArray → NpArray) (jsonLru : List String)
    (issues : List Issue) (topK : ℕ) (fs : Fs) (t1 t2 : ℚ) (h : t1 ≤ t2) :
    ∀ i, refCountAt
        (find_reference_issues encode normalizeRows jsonLru issues topK t2 fs) i ≤
      refCountAt
        (find_reference_issues encode normalizeRows jsonLru issues topK t1 fs) i := by
  intro i
  by_cases hemb : fs.embExists = true
  case neg =>
    have hf : fs.embExists = false := by
      cases hv : fs.embExists
      · rfl
      · exact absurd hv hemb
    rw [find_eq_missing encode normalizeRows jsonLru issues topK t2 fs (Or.inl hf),
      find_eq_missing encode normalizeRows jsonLru issues topK t1 fs (Or.inl hf)]
  case pos =>
    by_cases hmeta : fs.metaFound = true
    case neg =>
      have hf : fs.metaFound = false := by
        cases hv : fs.metaFound
        · rfl
        · exact absurd hv hmeta
      rw [find_eq_missing encode normalizeRows jsonLru issues topK t2 fs (Or.inr hf),
        find_eq_missing encode normalizeRows jsonLru issues topK t1 fs (Or.inr hf)]
    case pos =>
      by_cases hndim : fs.embFile.ndim = 2
      case neg =>
        rw [find_eq_error encode normalizeRows jsonLru issues topK t2 fs hemb hmeta hndim,
          find_eq_error encode normalizeRows jsonLru issues topK t1 fs hemb hmeta hndim]
      case pos =>
        by_cases hne : issues = []
        case pos =>
          subst hne
          rw [find_eq_empty_batch encode normalizeRows jsonLru topK t2 fs hemb hmeta hndim,
            find_eq_empty_batch encode normalizeRows jsonLru topK t1 fs hemb hmeta hndim]
        case neg =>
          by_cases hdim : (normalizeRows (encode (issues.map Issue.summary))).cols =
            fs.embFile.cols
          case neg =>
            rw [find_eq_dim_mismatch encode normalizeRows jsonLru issues topK t2 fs
              hemb hmeta hndim hne hdim,
              find_eq_dim_mismatch encode normalizeRows jsonLru issues topK t1 fs
              hemb hmeta hndim hne hdim]
          case pos =>
            rw [find_eq_scored encode normalizeRows jsonLru issues topK t2 fs
              hemb hmeta hndim hne hdim,
              find_eq_scored encode normalizeRows jsonLru issues topK t1 fs
              hemb hmeta hndim hne hdim]
            simp only [refCountAt, QueryReturn.results,
              List.getD_eq_getElem?_getD, List.getElem?_map]
            cases hx : issues.enum[i]? with
            | none => simp [hx]
            | some p =>
              exact processIssue_refs_length_mono _ _ _ _ h

/-- Witness for C8: raising the sample threshold from 1 to 8 does not
increase the reference count of the sample query record. -/
theorem C8_threshold_monotonicity_witness :
    refCountAt (find_reference_issues exEncode id [] [exIssue] 3 8 exFs) 0 ≤
      refCountAt (find_reference_issues exEncode id [] [exIssue] 3 1 exFs) 0 :=
  C8_threshold_monotonicity exEncode id [] [exIssue] 3 exFs 1 8 (by norm_num) 0

/-- The sample result returned for `exIssue` with `top_k = 1`: the two
top-ranked candidates are self-matches, the loop truncates to
`top_k * 2 = 2` candidates, so nothing is returned. -/
def exResultEmpty : RetrievalResult :=
  { input_key := "K", input_summary := "q", references := [],
    diagnostics := .scored 3 3 (some 0) }

/-- C9: the retrieval produces exactly one result per input record, in
input order, on every non-raising path, each carrying that input's key
and body summary. -/
theorem C9_one_result_per_input (encode : List String → NpArray)
    (normalizeRows : NpArray → NpArray) (jsonLru : List String)
    (issues : List Issue) (topK : ℕ) (thr : ℚ) (fs : Fs)
    (out : QueryReturn) (fs2 : Fs)
    (h : find_reference_issues encode normalizeRows jsonLru issues topK thr fs =
      Except.ok (out, fs2)) :
    out.results.length = issues.length ∧
    ∀ i : ℕ, (out.results.getD i defaultResult).input_key =
        safe_key (issues.getD i defaultIssue) ∧
      (out.results.getD i defaultResult).input_summary =
        (issues.getD i defaultIssue).summary := by
  have plainCase : ∀ (f : Issue → RetrievalResult),
      (∀ t, (f t).input_key = safe_key t ∧ (f t).input_summary = t.summary) →
      out = .plain (issues.map f) →
      out.results.length = issues.length ∧
      ∀ i : ℕ, (out.results.getD i defaultResult).input_key =
          safe_key (issues.getD i defaultIssue) ∧
        (out.results.getD i defaultResult).input_summary =
          (issues.getD i defaultIssue).summary := by
    intro f hf ho
    subst ho
    refine ⟨by simp [QueryReturn.results], ?_⟩
    intro i
    simp only [QueryReturn.results, List.getD_eq_getElem?_getD,
      List.getElem?_map]
    cases hx : issues[i]? with
    | none => exact ⟨rfl, rfl⟩
    | some t => exact hf t
  by_cases hemb : fs.embExists = true
  case neg =>
    have hf : fs.embExists = false := by
      cases hv : fs.embExists
      · rfl
      · exact absurd hv hemb
    rw [find_eq_missing encode normalizeRows jsonLru issues topK thr fs
      (Or.inl hf)] at h
    simp only [Except.ok.injEq, Prod.mk.injEq] at h
    exact plainCase _ (fun t => ⟨rfl, rfl⟩) h.1.symm
  case pos =>
    by_cases hmeta : fs.metaFound = true
    case neg =>
      have hf : fs.metaFound = false := by
        cases hv : fs.metaFound
        · rfl
        · exact absurd hv hmeta
      rw [find_eq_missing encode normalizeRows jsonLru issues topK thr fs
        (Or.inr hf)] at h
      simp only [Except.ok.injEq, Prod.mk.injEq] at h
      exact plainCase _ (fun t => ⟨rfl, rfl⟩) h.1.symm
    case pos =>
      by_cases hndim : fs.embFile.ndim = 2
      case neg =>
        rw [find_eq_error encode normalizeRows jsonLru issues topK thr fs
          hemb hmeta hndim] at h
        exact absurd h (by simp)
      case pos =>
        by_cases hne : issues = []
        case pos =>
          subst hne
          rw [find_eq_empty_batch encode normalizeRows jsonLru topK thr fs
            hemb hmeta hndim] at h
          simp only [Except.ok.injEq, Prod.mk.injEq] at h
          obtain ⟨ho, -⟩ := h
          subst ho
          exact ⟨rfl, fun i => ⟨rfl, rfl⟩⟩
        case neg =>
          by_cases hdim : (normalizeRows (encode (issues.map Issue.summary))).cols =
            fs.embFile.cols
          case neg =>
            rw [find_eq_dim_mismatch encode normalizeRows jsonLru issues topK thr fs
              hemb hmeta hndim hne hdim] at h
            simp only [Except.ok.injEq, Prod.mk.injEq] at h
            exact plainCase _ (fun t => ⟨rfl, rfl⟩) h.1.symm
          case pos =>
            rw [find_eq_scored encode normalizeRows jsonLru issues topK thr fs
              hemb hmeta hndim hne hdim] at h
            simp only [Except.ok.injEq, Prod.mk.injEq] at h
            obtain ⟨ho, -⟩ := h
            subst ho
            refine ⟨by simp [QueryReturn.results], ?_⟩
            intro i
            simp only [QueryReturn.results, List.getD_eq_getElem?_getD,
              List.getElem?_map, List.getElem?_enum]
            cases hx : issues[i]? with
            | none => exact ⟨rfl, rfl⟩
            | some t =>
              exact ⟨processIssue_input_key _ _ _ _ _,
                processIssue_input_summary _ _ _ _ _⟩

/-- Witness for C9: the sample run returns exactly one result for its
one input record. -/
theorem C9_one_result_per_input_witness :
    (QueryReturn.withAssignee [exResultK] (some "alice")).results.length =
      ([exIssue] : List Issue).length := by
  have h := C9_one_result_per_input exEncode id [] [exIssue] 3 1 exFs
    (.withAssignee [exResultK] (some "alice")) exFsAfter
    (by with_unfolding_all rfl)
  exact h.1

/-- C2 counterexample: a concrete query run completes successfully and
leaves the on-disk assignees CSV changed (rotated from
["alice", "bob"] to ["bob", "alice"]) — the retrieval operation does
not leave every on-disk artifact unchanged. -/
theorem C2_counterexample :
    find_reference_issues exEncode id [] [exIssue] 1 1 exFs =
      Except.ok (.withAssignee [exResultEmpty] (some "alice"), exFsAfter) ∧
    exFsAfter.csv ≠ exFs.csv := by
  constructor
  · with_unfolding_all rfl
  · decide

/-- C2 (amended): the retrieval engine never mutates the persisted
vector-store artifacts — the embedding matrix and the metadata file
(and their existence) are unchanged by every successful query — but it
does rewrite the assignees CSV through its per-record `assign_lru`
calls, so the query is not free of on-disk side effects. -/
theorem C2_vector_store_read_only (encode : List String → NpArray)
    (normalizeRows : NpArray → NpArray) (jsonLru : List String)
    (issues : List Issue) (topK : ℕ) (thr : ℚ) (fs : Fs)
    (out : QueryReturn) (fs2 : Fs)
    (h : find_reference_issues encode normalizeRows jsonLru issues topK thr fs =
      Except.ok (out, fs2)) :
    fs2.embExists = fs.embExists ∧ fs2.metaFound = fs.metaFound ∧
    fs2.embFile = fs.embFile ∧ fs2.metaFile = fs.metaFile := by
  by_cases hemb : fs.embExists = true
  case neg =>
    have hf : fs.embExists = false := by
      cases hv : fs.embExists
      · rfl
      · exact absurd hv hemb
    rw [find_eq_missing encode normalizeRows jsonLru issues topK thr fs
      (Or.inl hf)] at h
    simp only [Except.ok.injEq, Prod.mk.injEq] at h
    rw [← h.2]
    exact ⟨rfl, rfl, rfl, rfl⟩
  case pos =>
    by_cases hmeta : fs.metaFound = true
    case neg =>
      have hf : fs.metaFound = false := by
        cases hv : fs.metaFound
        · rfl
        · exact absurd hv hmeta
      rw [find_eq_missing encode normalizeRows jsonLru issues topK thr fs
        (Or.inr hf)] at h
      simp only [Except.ok.injEq, Prod.mk.injEq] at h
      rw [← h.2]
      exact ⟨rfl, rfl, rfl, rfl⟩
    case pos =>
      by_cases hndim : fs.embFile.ndim = 2
      case neg =>
        rw [find_eq_error encode normalizeRows jsonLru issues topK thr fs
          hemb hmeta hndim] at h
        exact absurd h (by simp)
      case pos =>
        by_cases hne : issues = []
        case pos =>
          subst hne
          rw [find_eq_empty_batch encode normalizeRows jsonLru topK thr fs
            hemb hmeta hndim] at h
          simp only [Except.ok.injEq, Prod.mk.injEq] at h
          rw [← h.2]
          exact ⟨rfl, rfl, rfl, rfl⟩
        case neg =>
          by_cases hdim : (normalizeRows (encode (issues.map Issue.summary))).cols =
            fs.embFile.cols
          case neg =>
            rw [find_eq_dim_mismatch encode normalizeRows jsonLru issues topK thr fs
              hemb hmeta hndim hne hdim] at h
            simp only [Except.ok.injEq, Prod.mk.injEq] at h
            rw [← h.2]
            exact ⟨rfl, rfl, rfl, rfl⟩
          case pos =>
            rw [find_eq_scored encode normalizeRows jsonLru issues topK thr fs
              hemb hmeta hndim hne hdim] at h
            simp only [Except.ok.injEq, Prod.mk.injEq] at h
            rw [← h.2]
            exact ⟨rfl, rfl, rfl, rfl⟩

/-- Witness for C2 (amended): in the concrete sample run the persisted
matrix and metadata are unchanged. -/
theorem C2_vector_store_read_only_witness :
    exFsAfter.embFile = exFs.embFile ∧ exFsAfter.metaFile = exFs.metaFile := by
  have h := C2_vector_store_read_only exEncode id [] [exIssue] 1 1 exFs
    (.withAssignee [exResultEmpty] (some "alice")) exFsAfter
    (by with_unfolding_all rfl)
  exact ⟨h.2.2.1, h.2.2.2⟩

instance (row : List ℚ) : IsTotal ℕ (rankRel row) := by
  constructor
  intro i j
  rcases lt_trichotomy (row.getD i 0) (row.getD j 0) with hlt | heq | hgt
  · exact Or.inr (Or.inl hlt)
  · rcases le_total i j with hij | hji
    · exact Or.inl (Or.inr ⟨heq, hij⟩)
    · exact Or.inr (Or.inr ⟨heq.symm, hji⟩)
  · exact Or.inl (Or.inl hgt)

instance (row : List ℚ) : IsTrans ℕ (rankRel row) := by
  constructor
  intro a b c hab hbc
  rcases hab with h1 | ⟨h1, h1le⟩ <;> rcases hbc with h2 | ⟨h2, h2le⟩
  · exact Or.inl (lt_trans h2 h1)
  · exact Or.inl (h2 ▸ h1)
  · exact Or.inl (h1 ▸ h2)
  · exact Or.inr ⟨h1.trans h2, le_trans h1le h2le⟩

/-- The ranking is a permutation of all stored row indices: every
stored vector is considered. -/
theorem argsortDesc_perm (row : List ℚ) :
    (argsortDesc row).Perm (List.range row.length) :=
  List.perm_insertionSort (rankRel row) (List.range row.length)

/-- The ranking lists the candidate indices in descending score
order. -/
theorem argsortDesc_sorted (row : List ℚ) :
    (argsortDesc row).Pairwise fun a b => row.getD b 0 ≤ row.getD a 0 := by
  have h := List.sorted_insertionSort (rankRel row) (List.range row.length)
  exact h.imp fun hab => by
    rcases hab with h1 | ⟨h1, -⟩
    · exact le_of_lt h1
    · exact le_of_eq h1.symm

/-- C1 counterexample: with `top_k = 1` the sample query returns no
reference at all, although the rank-2 candidate (key "B", score 7 ≥
threshold 1, not a self-match) survives filtering and no higher-ranked
candidate survives — as the `top_k = 3` run of the very same query and
store shows by returning exactly that candidate.  The loop truncates
the ranking to `top_k * 2` candidates before filtering, and both
truncated candidates are self-matches. -/
theorem C1_counterexample :
    find_reference_issues exEncode id [] [exIssue] 1 1 exFs =
      Except.ok (.withAssignee [exResultEmpty] (some "alice"), exFsAfter) ∧
    find_reference_issues exEncode id [] [exIssue] 3 1 exFs =
      Except.ok (.withAssignee [exResultK] (some "alice"), exFsAfter) := by
  constructor
  · with_unfolding_all rfl
  · with_unfolding_all rfl

/-- C1 (amended): for every query record the engine computes the dot
product against every stored vector and ranks all stored candidates in
descending score order, but it then truncates the ranking to the first
`2·top_k` candidates and returns the first `top_k` of those that
survive self-match suppression and threshold filtering; a surviving
candidate ranked beyond `2·top_k` is never returned. -/
theorem C1_truncated_ranking (encode : List String → NpArray)
    (normalizeRows : NpArray → NpArray) (jsonLru : List String)
    (issues : List Issue) (topK : ℕ) (thr : ℚ) (fs : Fs)
    (rs : List RetrievalResult) (pa : Option String) (fs2 : Fs)
    (h : find_reference_issues encode normalizeRows jsonLru issues topK thr fs =
      Except.ok (.withAssignee rs pa, fs2)) :
    rs.length = issues.length ∧
    (∀ (i : ℕ) (t : Issue), issues[i]? = some t →
      (rs.getD i defaultResult).references =
        (((argsortDesc (simsRow (normalizeRows (encode (issues.map Issue.summary)))
            (normalizeRows fs.embFile) i)).take (topK * 2)).filterMap
          (survivorRef (metaGet fs.metaFile) (safe_key t) thr
            (simsRow (normalizeRows (encode (issues.map Issue.summary)))
              (normalizeRows fs.embFile) i))).take (max topK 1)) ∧
    ∀ i : ℕ,
      (argsortDesc (simsRow (normalizeRows (encode (issues.map Issue.summary)))
          (normalizeRows fs.embFile) i)).Perm
        (List.range (simsRow (normalizeRows (encode (issues.map Issue.summary)))
          (normalizeRows fs.embFile) i).length) ∧
      (argsortDesc (simsRow (normalizeRows (encode (issues.map Issue.summary)))
          (normalizeRows fs.embFile) i)).Pairwise fun a b =>
        (simsRow (normalizeRows (encode (issues.map Issue.summary)))
            (normalizeRows fs.embFile) i).getD b 0 ≤
          (simsRow (normalizeRows (encode (issues.map Issue.summary)))
            (normalizeRows fs.embFile) i).getD a 0 := by
  by_cases hemb : fs.embExists = true
  case neg =>
    have hf : fs.embExists = false := by
      cases hv : fs.embExists
      · rfl
      · exact absurd hv hemb
    rw [find_eq_missing encode normalizeRows jsonLru issues topK thr fs
      (Or.inl hf)] at h
    exact absurd h (by simp)
  case pos =>
    by_cases hmeta : fs.metaFound = true
    case neg =>
      have hf : fs.metaFound = false := by
        cases hv : fs.metaFound
        · rfl
        · exact absurd hv hmeta
      rw [find_eq_missing encode normalizeRows jsonLru issues topK thr fs
        (Or.inr hf)] at h
      exact absurd h (by simp)
    case pos =>
      by_cases hndim : fs.embFile.ndim = 2
      case neg =>
        rw [find_eq_error encode normalizeRows jsonLru issues topK thr fs
          hemb hmeta hndim] at h
        exact absurd h (by simp)
      case pos =>
        by_cases hne : issues = []
        case pos =>
          subst hne
          rw [find_eq_empty_batch encode normalizeRows jsonLru topK thr fs
            hemb hmeta hndim] at h
          exact absurd h (by simp)
        case neg =>
          by_cases hdim : (normalizeRows (encode (issues.map Issue.summary))).cols =
            fs.embFile.cols
          case neg =>
            rw [find_eq_dim_mismatch encode normalizeRows jsonLru issues topK thr fs
              hemb hmeta hndim hne hdim] at h
            exact absurd h (by simp)
          case pos =>
            rw [find_eq_scored encode normalizeRows jsonLru issues topK thr fs
              hemb hmeta hndim hne hdim] at h
            simp only [Except.ok.injEq, Prod.mk.injEq,
              QueryReturn.withAssignee.injEq] at h
            obtain ⟨⟨ho, -⟩, -⟩ := h
            subst ho
            refine ⟨by simp, ?_, fun i => ⟨argsortDesc_perm _, argsortDesc_sorted _⟩⟩
            intro i t ht
            simp only [List.getD_eq_getElem?_getD, List.getElem?_map,
              List.getElem?_enum, ht]
            exact processIssue_references _ _ _ _ _

/-- Witness for C1 (amended): in the concrete sample run with
`top_k = 3` the batch shape matches and the returned references are
exactly the surviving candidates of the truncated ranking. -/
theorem C1_truncated_ranking_witness :
    ([exResultK] : List RetrievalResult).length = ([exIssue] : List Issue).length ∧
    exResultK.references = [exRefB] := by
  have h := C1_truncated_ranking exEncode id [] [exIssue] 3 1 exFs
    [exResultK] (some "alice") exFsAfter (by with_unfolding_all rfl)
  have h2 : exResultK.references = [exRefB] :=
    (h.2.1 0 exIssue rfl).trans (by with_unfolding_all rfl)
  exact ⟨h.1, h2⟩

/-- A 2-D array's shape is its row and column counts. -/
theorem shape_eq_of_ndim2 (a : NpArray) (h : a.ndim = 2) :
    a.shape = [a.rows, a.cols] := by
  unfold NpArray.ndim at h
  unfold NpArray.rows NpArray.cols
  cases hs : a.shape with
  | nil => rw [hs] at h; simp at h
  | cons x t =>
    cases t with
    | nil => rw [hs] at h; simp at h
    | cons y t2 =>
      cases t2 with
      | nil => simp [hs]
      | cons z t3 => rw [hs] at h; simp at h

/-- The numpy `size` of a 2-D array is its row count times its column
count. -/
theorem size_eq_of_ndim2 (a : NpArray) (h : a.ndim = 2) :
    a.size = a.rows * a.cols := by
  rw [NpArray.size, shape_eq_of_ndim2 a h]
  simp [List.foldl]

/-- Inversion of a successful load: either both artifacts existed and
the well-shaped pair was returned verbatim, or the empty snapshot was
returned. -/
theorem load_ok_cases (metaExists embExists : Bool) (metaFile : Meta)
    (embFile : NpArray) (dim : ℕ) (m : Meta) (e : NpArray)
    (h : load_meta_embs metaExists embExists metaFile embFile dim =
      Except.ok (m, e)) :
    (metaExists = true ∧ embExists = true ∧ e.ndim = 2 ∧ e.cols = dim ∧
      m = metaFile ∧ e = embFile) ∨
    (m = [] ∧ e = NpArray.zeros 0 dim) := by
  unfold load_meta_embs at h
  split at h
  · rename_i hcond
    split at h
    · exact absurd h (by simp)
    · rename_i hshape
      push_neg at hshape
      simp only [Except.ok.injEq, Prod.mk.injEq] at h
      refine Or.inl ⟨hcond.1, hcond.2, ?_, ?_, h.1.symm, h.2.symm⟩
      · rw [← h.2]; exact hshape.1
      · rw [← h.2]; exact hshape.2
  · simp only [Except.ok.injEq, Prod.mk.injEq] at h
    exact Or.inr ⟨h.1.symm, h.2.symm⟩

/-- Setting a fresh row id appends the binding at the end. -/
theorem metaSet_of_not_mem (m : Meta) (k : ℕ) (v : MetaEntry)
    (h : ∀ p ∈ m, p.1 ≠ k) : metaSet m k v = m ++ [(k, v)] := by
  unfold metaSet
  rw [if_neg]
  simp only [List.any_eq_true, beq_iff_eq, not_exists, not_and]
  intro p hp
  exact h p hp

/-- Folding fresh-id insertions over an enumerated batch appends all
the bindings in order. -/
theorem foldl_metaSet_enumFrom (n : ℕ) (ms : List MetaEntry) :
    ∀ (j : ℕ) (m : Meta), (∀ p ∈ m, p.1 < n + j) →
      (ms.enumFrom j).foldl (fun acc p => metaSet acc (n + p.1) p.2) m =
        m ++ (ms.enumFrom j).map fun p => (n + p.1, p.2) := by
  induction ms with
  | nil => intro j m _; simp
  | cons e rest ih =>
    intro j m hm
    simp only [List.enumFrom, List.foldl_cons, List.map_cons]
    rw [metaSet_of_not_mem m (n + j) e fun p hp => Nat.ne_of_lt (hm p hp)]
    rw [ih (j + 1) (m ++ [(n + j, e)]) ?_]
    · simp
    · intro p hp
      rcases List.mem_append.mp hp with hp1 | hp2
      · exact Nat.lt_succ_of_lt (by simpa using hm p hp1)
      · simp only [List.mem_singleton] at hp2
        subst hp2
        omega

/-- A well-formed metadata map only holds row ids below its length. -/
theorem MetaWf.key_lt {m : Meta} (h : MetaWf m) {p : ℕ × MetaEntry}
    (hp : p ∈ m) : p.1 < m.length := by
  have hmem : p.1 ∈ m.map Prod.fst := List.mem_map_of_mem Prod.fst hp
  rw [h] at hmem
  exact List.mem_range.mp hmem

/-- A lookup that succeeds in a prefix is unchanged by appending. -/
theorem metaGet_append_left (m app : Meta) (i : ℕ) (e : MetaEntry)
    (h : metaGet m i = some e) : metaGet (m ++ app) i = some e := by
  unfold metaGet at h ⊢
  rw [List.find?_append]
  cases hf : m.find? fun p => p.1 == i with
  | none => rw [hf] at h; simp at h
  | some q =>
    rw [hf] at h
    simpa using h

/-- C7: after any successful indexing run, every previously assigned
row id still maps to its original metadata entry and its original
vector row — existing rows are never edited or removed; changed
records only append. -/
theorem C7_append_only_row_stability (encode : List String → NpArray)
    (dim : ℕ) (issues : List Issue) (st : IndexState)
    (m0 : Meta) (e0 : NpArray) (out : IndexOutcome) (st2 : IndexState)
    (hdim : 0 < dim)
    (hload : load_meta_embs st.metaExists st.embExists st.metaFile st.embFile dim =
      Except.ok (m0, e0))
    (hwf : MetaWf m0) (hcons : e0.rows = m0.length)
    (h : add_index_new_Data encode dim issues st = Except.ok (out, st2)) :
    (∀ i e, metaGet m0 i = some e → metaGet st2.metaFile i = some e) ∧
    ∀ i, i < m0.length → i < st2.embFile.rows ∧
      ∀ j, st2.embFile.entry i j = e0.entry i j := by
  unfold add_index_new_Data at h
  rw [hload] at h
  simp only [] at h
  by_cases hm0 : m0 = []
  · constructor
    · intro i e hie
      rw [hm0] at hie
      simp [metaGet] at hie
    · intro i hi
      rw [hm0] at hi
      simp at hi
  · rw [if_neg hm0] at h
    rcases load_ok_cases st.metaExists st.embExists st.metaFile st.embFile dim
      m0 e0 hload with ⟨-, -, hnd, hcols, hmf, hef⟩ | ⟨hnil, -⟩
    · have hm0len : 0 < m0.length := by
        cases hml : m0
        · exact absurd hml hm0
        · simp [hml]
      have hsize : e0.size ≠ 0 := by
        rw [size_eq_of_ndim2 e0 hnd, hcons, hcols]
        exact Nat.mul_ne_zero (Nat.pos_iff_ne_zero.mp hm0len)
          (Nat.pos_iff_ne_zero.mp hdim)
      by_cases hp : incrementalPairs m0 issues = []
      · rw [if_pos hp] at h
        simp only [Except.ok.injEq, Prod.mk.injEq] at h
        rw [← h.2]
        constructor
        · intro i e hie
          rw [← hmf]
          exact hie
        · intro i hi
          rw [← hef]
          exact ⟨hcons ▸ hi, fun j => rfl⟩
      · rw [if_neg hp] at h
        rw [if_neg hsize] at h
        simp only [Except.ok.injEq, Prod.mk.injEq] at h
        rw [← h.2]
        constructor
        · intro i e hie
          simp only [List.enum]
          rw [foldl_metaSet_enumFrom m0.length _ 0 m0
            (fun p hp2 => by simpa using hwf.key_lt hp2)]
          exact metaGet_append_left m0 _ i e hie
        · intro i hi
          rw [← hcons] at hi
          refine ⟨?_, fun j => ?_⟩
          · show i < e0.rows +
              (encode (List.map Prod.fst (incrementalPairs m0 issues))).rows
            omega
          · simp only [NpArray.vstack]
            rw [if_pos hi]

    · exact absurd hnil hm0

/-- Sample stored metadata for one indexed record with key "K". -/
def exMetaA : Meta := [(0, mkMeta exIssueA "K")]

/-- Sample stored 1 × 4 embedding matrix. -/
def exArrA : NpArray := { shape := [1, 4], entry := fun _ _ => 1 }

/-- Sample on-disk index state holding one row. -/
def exStateA : IndexState :=
  { metaExists := true, embExists := true, metaFile := exMetaA,
    embFile := exArrA, annExists := true }

/-- Witness for C7: indexing a changed record with key "K" over the
one-row sample store leaves row 0 mapping to its original metadata. -/
theorem C7_append_only_row_stability_witness :
    metaGet [(0, mkMeta exIssueA "K"), (1, mkMeta exIssueB "K")] 0 =
      some (mkMeta exIssueA "K") := by
  have h := C7_append_only_row_stability exEncode4 4 [exIssueB] exStateA
    exMetaA exArrA
    { status := "incremental_ok", added := 1, index_size := 2 }
    { metaExists := true, embExists := true,
      metaFile := [(0, mkMeta exIssueA "K"), (1, mkMeta exIssueB "K")],
      embFile := exArrA.vstack (exEncode4 ["b"]), annExists := true }
    (by decide) (by with_unfolding_all rfl)
    (by simp only [MetaWf, exMetaA]; rfl) rfl
    (by with_unfolding_all rfl)
  exact h.1 0 (mkMeta exIssueA "K") (by with_unfolding_all rfl)

/-- C4 counterexample: the batch [A, B] whose two records share the
derived key "K" but differ in summary is fully indexed by the first
call (`built_from_all`, 2 rows); the second call with the identical
batch returns `incremental_ok` with 1 row added — not
`no_new_or_changed` with zero rows — because the key map points at the
later row, making the earlier record look changed. -/
theorem C4_counterexample :
    ((add_index_new_Data exEncode4 4 [exIssueA, exIssueB] exEmptyState).toOption.bind
        fun p => (add_index_new_Data exEncode4 4 [exIssueA, exIssueB] p.2).toOption.map
          fun q => q.1) =
      some { status := "incremental_ok", added := 1, index_size := 3 } := by
  with_unfolding_all rfl

/-- The key-to-row fold reads like a last-match search: the latest
binding of a key wins, as in a Python dict build. -/
theorem keyToIdx_go (m : Meta) (g : String → Option ℕ) (k : String) :
    m.foldl (fun acc p k2 => if k2 = p.2.key then some p.1 else acc k2) g k =
      match m.reverse.find? fun p => k == p.2.key with
      | some p => some p.1
      | none => g k := by
  induction m generalizing g with
  | nil => simp
  | cons p m ih =>
    simp only [List.foldl_cons, List.reverse_cons]
    rw [ih, List.find?_append]
    cases hf : m.reverse.find? fun q => k == q.2.key with
    | some q => simp
    | none =>
      simp only [Option.none_or, List.find?]
      by_cases hk : k = p.2.key
      · simp [beq_iff_eq, hk]
      · have hb : (k == p.2.key) = false := by simp [hk]
        rw [hb, if_neg hk]

/-- `keyToIdx` is the row id of the last binding of the key. -/
theorem keyToIdx_eq_find_reverse (m : Meta) (k : String) :
    keyToIdx m k =
      (m.reverse.find? fun p => k == p.2.key).map Prod.fst := by
  unfold keyToIdx
  rw [keyToIdx_go]
  cases hf : m.reverse.find? fun p => k == p.2.key <;> simp

/-- `find?` returns the unique satisfying element when there is one. -/
theorem find?_eq_some_of_unique {α : Type} (p : α → Bool) (l : List α) (a : α)
    (ha : a ∈ l) (hpa : p a = true) (huniq : ∀ b ∈ l, p b = true → b = a) :
    l.find? p = some a := by
  cases hf : l.find? p with
  | none => exact absurd hpa (by simpa using List.find?_eq_none.mp hf a ha)
  | some b =>
    exact congrArg some (huniq b (List.mem_of_find?_eq_some hf)
      (List.find?_some hf))

/-- With duplicate-free row ids, looking up a member's id returns its
entry. -/
theorem metaGet_of_mem_nodup (m : Meta) (hnd : (m.map Prod.fst).Nodup)
    (q : ℕ × MetaEntry) (hq : q ∈ m) : metaGet m q.1 = some q.2 := by
  unfold metaGet
  rw [find?_eq_some_of_unique (fun p => p.1 == q.1) m q hq (by simp)
    fun b hb hpb => List.inj_on_of_nodup_map hnd hb hq (by simpa using hpb)]
  rfl

/-- A record the classifier embeds always yields its own
(summary, metadata) pair. -/
theorem classify_some_eq (meta : Meta) (t : Issue) (p : String × MetaEntry)
    (h : classifyIncremental meta t = some p) :
    p = (t.summary, mkMeta t (safe_key t)) := by
  unfold classifyIncremental at h
  by_cases hk : safe_key t = ""
  · rw [if_pos hk] at h
    exact absurd h (by simp)
  · rw [if_neg hk] at h
    cases h1 : keyToIdx meta (safe_key t) with
    | none => rw [h1] at h; exact (Option.some.inj h).symm
    | some idx =>
      rw [h1] at h
      simp only [] at h
      cases h2 : metaGet meta idx with
      | none => rw [h2] at h; exact (Option.some.inj h).symm
      | some stored =>
        rw [h2] at h
        simp only [] at h
        by_cases h3 : stored.summary ≠ t.summary ∨ stored.assignee ≠ t.assignee
        · rw [if_pos h3] at h; exact (Option.some.inj h).symm
        · rw [if_neg h3] at h; exact absurd h (by simp)

/-- A stored row matching an incoming record: the key lookup lands on
a row whose stored summary and assignee equal the record's. -/
def matchedInStore (meta : Meta) (t : Issue) : Prop :=
  ∃ idx stored, keyToIdx meta (safe_key t) = some idx ∧
    metaGet meta idx = some stored ∧
    stored.summary = t.summary ∧ stored.assignee = t.assignee

/-- A key-bearing record the classifier drops is matched in the
store. -/
theorem classify_none_matched (meta : Meta) (t : Issue)
    (hk : safe_key t ≠ "") (h : classifyIncremental meta t = none) :
    matchedInStore meta t := by
  unfold classifyIncremental at h
  rw [if_neg hk] at h
  cases h1 : keyToIdx meta (safe_key t) with
  | none => rw [h1] at h; exact absurd h (by simp)
  | some idx =>
    rw [h1] at h
    simp only [] at h
    cases h2 : metaGet meta idx with
    | none => rw [h2] at h; exact absurd h (by simp)
    | some stored =>
      rw [h2] at h
      simp only [] at h
      by_cases h3 : stored.summary ≠ t.summary ∨ stored.assignee ≠ t.assignee
      · rw [if_pos h3] at h; exact absurd h (by simp)
      · push_neg at h3
        exact ⟨idx, stored, h1, h2, h3.1, h3.2⟩

/-- A store matching every key-bearing record classifies the whole
batch as unchanged. -/
theorem incrementalPairs_eq_nil_of_matched (meta : Meta) (issues : List Issue)
    (h : ∀ t ∈ issues, safe_key t = "" ∨ matchedInStore meta t) :
    incrementalPairs meta issues = [] := by
  unfold incrementalPairs
  rw [List.filterMap_eq_nil_iff]
  intro t ht
  unfold classifyIncremental
  rcases h t ht with hk | ⟨idx, stored, h1, h2, h3, h4⟩
  · rw [if_pos hk]
  · by_cases hk : safe_key t = ""
    · rw [if_pos hk]
    · rw [if_neg hk, h1]
      simp only []
      rw [h2]
      simp only []
      rw [if_neg (by push_neg; exact ⟨h3, h4⟩)]

/-- With only key-bearing records, the first-run selection keeps the
whole batch in order. -/
theorem firstRunPairs_eq_map (issues : List Issue)
    (hbear : ∀ t ∈ issues, safe_key t ≠ "") :
    firstRunPairs issues =
      issues.map fun t => (t.summary, mkMeta t (safe_key t)) := by
  induction issues with
  | nil => rfl
  | cons t rest ih =>
    unfold firstRunPairs at ih ⊢
    simp only [List.filterMap_cons, List.map_cons]
    rw [if_neg (hbear t (List.mem_cons_self t rest))]
    rw [ih fun u hu => hbear u (List.mem_cons_of_mem t hu)]

/-- A filter whose kept values are determined pointwise yields a
sublist of the corresponding map. -/
theorem filterMap_sublist_map {α β : Type} (f : α → Option β) (g : α → β)
    (l : List α) (h : ∀ a p, f a = some p → p = g a) :
    (l.filterMap f).Sublist (l.map g) := by
  induction l with
  | nil => simp
  | cons a l ih =>
    simp only [List.filterMap_cons, List.map_cons]
    cases hf : f a with
    | none => exact ih.cons (g a)
    | some p => rw [h a p hf]; exact ih.cons₂ (g a)

/-- The appended metadata segment of an incremental run: the batch's
new entries, keyed by the next available row ids. -/
def shiftedApp (n : ℕ) (ms : List MetaEntry) : Meta :=
  ms.enum.map fun p => (n + p.1, p.2)

/-- Row ids of the appended segment. -/
theorem shiftedApp_ids (n : ℕ) (ms : List MetaEntry) :
    (shiftedApp n ms).map Prod.fst = (List.range ms.length).map fun j => n + j := by
  unfold shiftedApp
  rw [List.map_map]
  have hc : Prod.fst ∘ (fun p : ℕ × MetaEntry => (n + p.1, p.2)) =
      (fun j => n + j) ∘ Prod.fst := rfl
  rw [hc, ← List.map_map, List.enum_map_fst]

/-- Appending the new segment to a well-formed map keeps row ids
duplicate-free. -/
theorem extended_ids_nodup (m0 : Meta) (hwf : MetaWf m0) (ms : List MetaEntry) :
    ((m0 ++ shiftedApp m0.length ms).map Prod.fst).Nodup := by
  rw [List.map_append, hwf, shiftedApp_ids]
  refine List.Nodup.append (List.nodup_range _)
    (List.Nodup.map (fun a b hab => by omega) (List.nodup_range _)) ?_
  intro a ha hb
  have h1 : a < m0.length := List.mem_range.mp ha
  obtain ⟨j, -, hja⟩ := List.mem_map.mp hb
  omega

/-- Members of the appended segment carry batch entries at shifted
ids. -/
theorem mem_shiftedApp {n : ℕ} {ms : List MetaEntry} {q : ℕ × MetaEntry}
    (hq : q ∈ shiftedApp n ms) : q.2 ∈ ms ∧ n ≤ q.1 := by
  obtain ⟨p, hp, hpq⟩ := List.mem_map.mp hq
  subst hpq
  constructor
  · have hmem : p.2 ∈ ms.enum.map Prod.snd := List.mem_map_of_mem Prod.snd hp
    rwa [List.enum_map_snd] at hmem
  · omega

/-- Every batch entry appears in the appended segment at some shifted
id. -/
theorem shiftedApp_mem_of_mem {ms : List MetaEntry} {e : MetaEntry}
    (he : e ∈ ms) (n : ℕ) : ∃ i, (n + i, e) ∈ shiftedApp n ms := by
  obtain ⟨i, hi⟩ := List.mem_iff_getElem?.mp he
  refine ⟨i, List.mem_iff_getElem?.mpr ⟨i, ?_⟩⟩
  unfold shiftedApp
  rw [List.getElem?_map, List.getElem?_enum, hi]
  rfl

/-- Core matching lemma: a key-bearing batch record is matched in the
store extended with the appended segment, provided its entry was
either appended, or already matched and not superseded by an appended
entry with the same key. -/
theorem matched_in_extended (m0 : Meta) (hwf : MetaWf m0)
    (issues : List Issue) (hkeys : (issues.map safe_key).Nodup)
    (ms : List MetaEntry)
    (hms : ∀ e ∈ ms, ∃ u ∈ issues, e = mkMeta u (safe_key u))
    (t : Issue) (ht : t ∈ issues) (hk : safe_key t ≠ "")
    (hcover : mkMeta t (safe_key t) ∈ ms ∨
      (matchedInStore m0 t ∧ mkMeta t (safe_key t) ∉ ms)) :
    matchedInStore (m0 ++ shiftedApp m0.length ms) t := by
  have hinj : ∀ u ∈ issues, safe_key u = safe_key t → u = t :=
    fun u hu he => List.inj_on_of_nodup_map hkeys hu ht he
  rcases hcover with hin | ⟨⟨idx, stored, hki, hmg, hs, ha⟩, hnotin⟩
  · cases hfa : (shiftedApp m0.length ms).reverse.find?
        (fun p => safe_key t == p.2.key) with
    | none =>
      obtain ⟨i, hi⟩ := shiftedApp_mem_of_mem hin m0.length
      have hnone := List.find?_eq_none.mp hfa (m0.length + i, mkMeta t (safe_key t))
        (List.mem_reverse.mpr hi)
      simp [mkMeta] at hnone
    | some q =>
      have hqmem : q ∈ shiftedApp m0.length ms :=
        List.mem_reverse.mp (List.mem_of_find?_eq_some hfa)
      have hqkey : q.2.key = safe_key t := by
        have hp := List.find?_some hfa
        exact (beq_iff_eq.mp hp).symm
      obtain ⟨u, hu, hue⟩ := hms q.2 (mem_shiftedApp hqmem).1
      have hukey : safe_key u = safe_key t := by
        rw [hue] at hqkey
        simpa [mkMeta] using hqkey
      have hut : u = t := hinj u hu hukey
      subst hut
      refine ⟨q.1, q.2, ?_, ?_, ?_, ?_⟩
      · rw [keyToIdx_eq_find_reverse, List.reverse_append, List.find?_append, hfa]
        rfl
      · exact metaGet_of_mem_nodup _ (extended_ids_nodup m0 hwf ms) q
          (List.mem_append.mpr (Or.inr hqmem))
      · rw [hue]; rfl
      · rw [hue]; rfl
  · have hfa : (shiftedApp m0.length ms).reverse.find?
        (fun p => safe_key t == p.2.key) = none := by
      rw [List.find?_eq_none]
      intro q hq hpred
      obtain ⟨u, hu, hue⟩ := hms q.2 (mem_shiftedApp (List.mem_reverse.mp hq)).1
      have hqkey : q.2.key = safe_key t := (beq_iff_eq.mp hpred).symm
      have hukey : safe_key u = safe_key t := by
        rw [hue] at hqkey
        simpa [mkMeta] using hqkey
      have hut : u = t := hinj u hu hukey
      rw [hut] at hue
      exact hnotin (hue ▸ (mem_shiftedApp (List.mem_reverse.mp hq)).1)
    refine ⟨idx, stored, ?_, ?_, hs, ha⟩
    · rw [keyToIdx_eq_find_reverse, List.reverse_append, List.find?_append, hfa]
      rw [keyToIdx_eq_find_reverse] at hki
      simpa using hki
    · exact metaGet_append_left _ _ _ _ hmg

/-- A store whose metadata matches every key-bearing record makes the
indexer a no-op: `no_new_or_changed`, zero rows added, state
untouched. -/
theorem add_index_no_change (encode : List String → NpArray) (dim : ℕ)
    (issues : List Issue) (st : IndexState)
    (hmeta : st.metaExists = true) (hemb : st.embExists = true)
    (hnd : st.embFile.ndim = 2) (hcols : st.embFile.cols = dim)
    (hne : st.metaFile ≠ [])
    (hmatch : ∀ t ∈ issues, safe_key t = "" ∨ matchedInStore st.metaFile t) :
    add_index_new_Data encode dim issues st =
      Except.ok ({ status := "no_new_or_changed", added := 0,
                   index_size := st.embFile.rows }, st) := by
  unfold add_index_new_Data load_meta_embs
  rw [if_pos (by rw [hmeta, hemb]; exact ⟨rfl, rfl⟩)]
  rw [if_neg (by push_neg; exact ⟨hnd, hcols⟩)]
  simp only []
  rw [if_neg hne]
  rw [if_pos (incrementalPairs_eq_nil_of_matched st.metaFile issues hmatch)]

/-- C4 (amended): for every non-empty batch of key-bearing records
with pairwise-distinct derived keys, indexed over a well-formed store
by an embedding service of fixed dimension, a second call with the
same unchanged batch returns `no_new_or_changed` with zero rows added
and leaves the state untouched. -/
theorem C4_idempotent_for_distinct_keys (encode : List String → NpArray)
    (dim : ℕ) (issues : List Issue) (st0 : IndexState)
    (out1 : IndexOutcome) (st1 : IndexState)
    (henc : ∀ ts, (encode ts).shape = [ts.length, dim])
    (hwf : MetaWf st0.metaFile)
    (hkeys : (issues.map safe_key).Nodup)
    (hbear : ∀ t ∈ issues, safe_key t ≠ "")
    (hne : issues ≠ [])
    (h1 : add_index_new_Data encode dim issues st0 = Except.ok (out1, st1)) :
    add_index_new_Data encode dim issues st1 =
      Except.ok ({ status := "no_new_or_changed", added := 0,
                   index_size := st1.embFile.rows }, st1) := by
  unfold add_index_new_Data at h1
  cases hload : load_meta_embs st0.metaExists st0.embExists st0.metaFile
      st0.embFile dim with
  | error e => rw [hload] at h1; exact absurd h1 (by simp)
  | ok pr =>
    obtain ⟨m0, e0⟩ := pr
    rw [hload] at h1
    simp only [] at h1
    by_cases hm0 : m0 = []
    · -- first run: built_from_all
      subst hm0
      rw [if_pos rfl] at h1
      have hpairs : firstRunPairs issues =
          issues.map fun t => (t.summary, mkMeta t (safe_key t)) :=
        firstRunPairs_eq_map issues hbear
      have hpne : firstRunPairs issues ≠ [] := by
        rw [hpairs]
        intro hc
        exact hne (List.map_eq_nil_iff.mp hc)
      rw [if_neg hpne] at h1
      simp only [Except.ok.injEq, Prod.mk.injEq] at h1
      obtain ⟨-, hst1⟩ := h1
      subst hst1
      have hmetas : (firstRunPairs issues).map Prod.snd =
          issues.map fun t => mkMeta t (safe_key t) := by
        rw [hpairs, List.map_map]
        rfl
      apply add_index_no_change
      · rfl
      · rfl
      · show (encode ((firstRunPairs issues).map Prod.fst)).ndim = 2
        rw [NpArray.ndim, henc]
        rfl
      · show (encode ((firstRunPairs issues).map Prod.fst)).cols = dim
        rw [NpArray.cols, henc]
        rfl
      · show ((firstRunPairs issues).map Prod.snd).enum ≠ []
        intro hc
        exact hpne (by simpa using congrArg List.length hc)
      · intro t ht
        refine Or.inr ?_
        show matchedInStore ((firstRunPairs issues).map Prod.snd).enum t
        have hconv : ([] : Meta) ++
            shiftedApp ([] : Meta).length ((firstRunPairs issues).map Prod.snd) =
            ((firstRunPairs issues).map Prod.snd).enum := by
          simp [shiftedApp]
        refine hconv ▸ matched_in_extended [] rfl issues hkeys _ ?_ t ht
          (hbear t ht) ?_
        · intro e he
          rw [hmetas] at he
          obtain ⟨u, hu, hue⟩ := List.mem_map.mp he
          exact ⟨u, hu, hue.symm⟩
        · refine Or.inl ?_
          rw [hmetas]
          exact List.mem_map_of_mem _ ht
    · -- incremental run
      rw [if_neg hm0] at h1
      rcases load_ok_cases st0.metaExists st0.embExists st0.metaFile st0.embFile
        dim m0 e0 hload with ⟨hmex, heex, hnd0, hcols0, hmf, hef⟩ | ⟨hnil, -⟩
      · have hwf0 : MetaWf m0 := by rw [hmf]; exact hwf
        by_cases hp : incrementalPairs m0 issues = []
        · rw [if_pos hp] at h1
          simp only [Except.ok.injEq, Prod.mk.injEq] at h1
          obtain ⟨-, hst1⟩ := h1
          subst hst1
          apply add_index_no_change
          · exact hmex
          · exact heex
          · rw [← hef]; exact hnd0
          · rw [← hef]; exact hcols0
          · rw [← hmf]; exact hm0
          · intro t ht
            refine Or.inr ?_
            rw [← hmf]
            have hcl := List.filterMap_eq_nil_iff.mp hp t ht
            exact classify_none_matched m0 t (hbear t ht) hcl
        · rw [if_neg hp] at h1
          simp only [Except.ok.injEq, Prod.mk.injEq] at h1
          obtain ⟨-, hst1⟩ := h1
          subst hst1
          have hms : ∀ e ∈ (incrementalPairs m0 issues).map Prod.snd,
              ∃ u ∈ issues, e = mkMeta u (safe_key u) := by
            intro e he
            obtain ⟨p, hpmem, hpe⟩ := List.mem_map.mp he
            obtain ⟨u, hu, hcu⟩ := List.mem_filterMap.mp hpmem
            refine ⟨u, hu, ?_⟩
            rw [← hpe, classify_some_eq m0 u p hcu]
          have hmeta2 : (List.foldl
              (fun acc p => metaSet acc (m0.length + p.1) p.2) m0
              ((incrementalPairs m0 issues).map Prod.snd).enum) =
              m0 ++ shiftedApp m0.length
                ((incrementalPairs m0 issues).map Prod.snd) :=
            foldl_metaSet_enumFrom m0.length _ 0 m0
              fun p hp2 => by simpa using hwf0.key_lt hp2
          apply add_index_no_change
          · rfl
          · rfl
          · show (if e0.size = 0
                then encode ((incrementalPairs m0 issues).map Prod.fst)
                else e0.vstack (encode ((incrementalPairs m0 issues).map Prod.fst))).ndim
                = 2
            split
            · rw [NpArray.ndim, henc]; rfl
            · rfl
          · show (if e0.size = 0
                then encode ((incrementalPairs m0 issues).map Prod.fst)
                else e0.vstack (encode ((incrementalPairs m0 issues).map Prod.fst))).cols
                = dim
            split
            · rw [NpArray.cols, henc]; rfl
            · show ([e0.rows + _, e0.cols].getD 1 0) = dim
              show e0.cols = dim
              exact hcols0
          · show (List.foldl (fun acc p => metaSet acc (m0.length + p.1) p.2) m0
                ((incrementalPairs m0 issues).map Prod.snd).enum) ≠ []
            rw [hmeta2]
            intro hc
            exact hm0 (List.append_eq_nil.mp hc).1
          · intro t ht
            refine Or.inr ?_
            show matchedInStore (List.foldl
              (fun acc p => metaSet acc (m0.length + p.1) p.2) m0
              ((incrementalPairs m0 issues).map Prod.snd).enum) t
            rw [hmeta2]
            refine matched_in_extended m0 hwf0 issues hkeys _ hms t ht
              (hbear t ht) ?_
            cases hc : classifyIncremental m0 t with
            | some p =>
              refine Or.inl ?_
              have hpe := classify_some_eq m0 t p hc
              have hpm : p ∈ incrementalPairs m0 issues :=
                List.mem_filterMap.mpr ⟨t, ht, hc⟩
              have := List.mem_map_of_mem Prod.snd hpm
              rw [hpe] at this
              exact this
            | none =>
              refine Or.inr ⟨classify_none_matched m0 t (hbear t ht) hc, ?_⟩
              intro hin
              obtain ⟨p, hpmem, hpe⟩ := List.mem_map.mp hin
              obtain ⟨u, hu, hcu⟩ := List.mem_filterMap.mp hpmem
              have hpu := classify_some_eq m0 u p hcu
              rw [hpu] at hpe
              have hkey : safe_key u = safe_key t := by
                have := congrArg MetaEntry.key hpe
                simpa [mkMeta] using this
              have hut : u = t :=
                List.inj_on_of_nodup_map hkeys hu ht hkey
              rw [hut] at hcu
              rw [hcu] at hc
              exact absurd hc (by simp)
      · exact absurd hnil hm0

/-- Witness for C4 (amended): indexing the single-record batch [A]
from the empty store and then calling again with the same batch
returns `no_new_or_changed` with zero rows added and the state
untouched. -/
theorem C4_idempotent_witness :
    add_index_new_Data exEncode4 4 [exIssueA]
      { metaExists := true, embExists := true,
        metaFile := [(0, mkMeta exIssueA "K")],
        embFile := exEncode4 ["a"], annExists := true } =
      Except.ok ({ status := "no_new_or_changed", added := 0, index_size := 1 },
        { metaExists := true, embExists := true,
          metaFile := [(0, mkMeta exIssueA "K")],
          embFile := exEncode4 ["a"], annExists := true }) := by
  have h := C4_idempotent_for_distinct_keys exEncode4 4 [exIssueA] exEmptyState
    { status := "built_from_all", added := 1, index_size := 1 }
    { metaExists := true, embExists := true,
      metaFile := [(0, mkMeta exIssueA "K")],
      embFile := exEncode4 ["a"], annExists := true }
    (fun ts => rfl) rfl (by simp) (by decide) (by simp)
    (by with_unfolding_all rfl)
  exact h

end JiraAgent
